import Mathlib

/-!
# Verification of the nautilus `ChunkStore` (src/grammartec/src/chunkstore.rs)

Shallow embedding of the chunk corpus manager: ingestion (`add_tree`),
structural retrieval (`get_alternative_to`), byte retrieval (`get_chunk`),
and the tree-count query (`trees`).  External collaborators (grammar
context, derivation trees, the random number generator and the file
system) are modelled at their interface boundary:

* a `Tree` is a record of the operations `add_tree` consumes
  (`tree.size()`, `tree.sizes[i]`, `tree.get_rule_id`, `tree.unparse`,
  and `tree.get_rule(n, ctx).nonterm()` which, in the source, equals the
  context's nonterminal of the node's rule id);
* the `Context` is its `get_nt` table from `RuleID`s to `NTermID`s;
* the file system is a map from path strings to file contents, together
  with two oracles saying whether `File::create` / `write_all` succeed
  at a given path (`.expect` panics are modelled as `Except.error`
  carrying the mutated state at the moment of the panic, matching the
  fact that mutations made before a panic through `&mut self` persist);
* the random values drawn from `thread_rng` are explicit parameters:
  `get_chunk`'s `gen_range(0..high)` result is a parameter, and the
  per-element rolls of `IteratorRandom::choose` (which, for a `Filter`
  iterator whose size hint lower bound is 0, keeps element `k`
  with probability `1/(k+1)`, i.e. when a uniform draw from
  `[0, k+1)` is `0`) are a function `rolls : Nat → Nat` used modulo
  `k + 1`.
-/

namespace Nautilus

/-- Byte strings (`Vec<u8>`); a byte is just modelled as a `Nat`. -/
abbrev Bytes := List Nat

/-- `NTermID`, `RuleID`, `NodeID` and tree indices are opaque ids; we model
them all as `Nat`. -/
abbrev RuleId := Nat

/-- The grammar `Context`, reduced to the single operation the chunk store
uses: `ctx.get_nt(&RuleIDOrCustom::Rule(r))`, the nonterminal of a rule.
In the source, `tree.get_rule(n, ctx).nonterm()` equals
`ctx.get_nt` of the node's rule id, so one table serves both call sites. -/
structure Context where
  getNt : RuleId → Nat

/-- A derivation `Tree` at the interface `add_tree` and the retrieval
functions consume: node count, per-node subtree sizes (`tree.sizes[i]`),
per-node rule id (`tree.get_rule_id`), and per-node serialization
(`tree.unparse(n, ctx, &mut buffer)`, which appends to an empty scratch
buffer, hence is a function of the node). -/
structure Tree where
  size : Nat
  sizes : Nat → Nat
  ruleId : Nat → RuleId
  unparse : Nat → Bytes

/-- Junk tree used to totalize `self.trees[tid]` indexing (the source
panics when out of bounds; the invariant proved for the store shows the
index is always in bounds). -/
def defaultTree : Tree := ⟨0, fun _ => 0, fun _ => 0, fun _ => []⟩

/-! ## File names: `format!("{}/outputs/chunks/chunk_{:09}", work_dir, n)` -/

/-- Little-endian decimal digits of `n` (empty for `0`), via explicit fuel
so that the definition is structurally recursive and kernel-reducible. -/
def digitsLEAux : Nat → Nat → List Nat
  | 0, _ => []
  | _ + 1, 0 => []
  | fuel + 1, n + 1 => (n + 1) % 10 :: digitsLEAux fuel ((n + 1) / 10)

/-- Little-endian decimal digits of `n`. -/
def digitsLE (n : Nat) : List Nat := digitsLEAux n n

/-- Value of a little-endian decimal digit list. -/
def valLE : List Nat → Nat
  | [] => 0
  | d :: ds => d + 10 * valLE ds

/-- Decimal digit as a character. -/
def digitChar (d : Nat) : Char := Char.ofNat (48 + d)

/-- Character back to digit value. -/
def charToDigit (c : Char) : Nat := c.toNat - 48

/-- The digit characters of `n`, little endian, zero-padded at the
high-order end to width 9: the char-list model of `format!("{:09}", n)`
read right to left. -/
def padLE (n : Nat) : List Char :=
  (digitsLE n).map digitChar ++ List.replicate (9 - (digitsLE n).length) (digitChar 0)

/-- `format!("{:09}", n)`: decimal representation of `n` zero-padded on
the left to at least 9 characters. -/
def pad9 (n : Nat) : String := String.mk (padLE n).reverse

/-- `format!("{}/outputs/chunks/chunk_{:09}", work_dir, n)`: the path of
the `n`-th chunk file. -/
def chunkFilePath (workDir : String) (n : Nat) : String :=
  workDir ++ "/outputs/chunks/chunk_" ++ pad9 n

theorem digitsLEAux_zero_arg (fuel : Nat) : digitsLEAux fuel 0 = [] := by
  cases fuel <;> rfl

/-- The fuel does not matter as long as it is at least the argument. -/
theorem digitsLEAux_fuel :
    ∀ n fuel fuel', n ≤ fuel → n ≤ fuel' → digitsLEAux fuel n = digitsLEAux fuel' n := by
  intro n
  induction n using Nat.strong_induction_on with
  | _ n ih =>
    intro fuel fuel' h h'
    match n, fuel, fuel' with
    | 0, f, f' => rw [digitsLEAux_zero_arg, digitsLEAux_zero_arg]
    | m + 1, f + 1, f' + 1 =>
      simp only [digitsLEAux]
      congr 1
      have hdiv : (m + 1) / 10 < m + 1 := Nat.div_lt_self (by omega) (by omega)
      exact ih ((m + 1) / 10) hdiv f f' (by omega) (by omega)

/-- Unfolding rule for `digitsLE` on a positive number. -/
theorem digitsLE_pos (n : Nat) (h : 0 < n) :
    digitsLE n = n % 10 :: digitsLE (n / 10) := by
  unfold digitsLE
  match n, h with
  | m + 1, _ =>
    simp only [digitsLEAux]
    congr 1
    have hdiv : (m + 1) / 10 < m + 1 := Nat.div_lt_self (by omega) (by omega)
    exact digitsLEAux_fuel ((m + 1) / 10) m ((m + 1) / 10) (by omega) (le_refl _)

theorem digitsLE_zero : digitsLE 0 = [] := rfl

/-- The decimal digit list of `n` evaluates back to `n`. -/
theorem valLE_digitsLE (n : Nat) : valLE (digitsLE n) = n := by
  induction n using Nat.strong_induction_on with
  | _ n ih =>
    rcases Nat.eq_zero_or_pos n with hz | hp
    · subst hz; rfl
    · rw [digitsLE_pos n hp]
      simp only [valLE]
      rw [ih (n / 10) (Nat.div_lt_self hp (by omega))]
      omega

/-- Every entry of `digitsLE n` is a decimal digit. -/
theorem digitsLE_lt_ten (n : Nat) : ∀ d ∈ digitsLE n, d < 10 := by
  induction n using Nat.strong_induction_on with
  | _ n ih =>
    rcases Nat.eq_zero_or_pos n with hz | hp
    · subst hz; simp [digitsLE_zero]
    · rw [digitsLE_pos n hp]
      intro d hd
      rcases List.mem_cons.mp hd with h | h
      · subst h; exact Nat.mod_lt _ (by omega)
      · exact ih (n / 10) (Nat.div_lt_self hp (by omega)) d h

theorem charToDigit_digitChar (d : Nat) (h : d < 10) :
    charToDigit (digitChar d) = d := by
  interval_cases d <;> decide

/-- `valLE` ignores trailing (high-order) zero digits. -/
theorem valLE_append_zeros (l : List Nat) (k : Nat) :
    valLE (l ++ List.replicate k 0) = valLE l := by
  induction l with
  | nil =>
    induction k with
    | zero => rfl
    | succ k ihk => simpa [List.replicate_succ, valLE] using ihk
  | cons d ds ih => simp [valLE, ih]

/-- The padded char list of `n` decodes back to `n`. -/
theorem decode_padLE (n : Nat) :
    valLE ((padLE n).map charToDigit) = n := by
  unfold padLE
  rw [List.map_append, List.map_map, List.map_replicate]
  have h1 : (digitsLE n).map (charToDigit ∘ digitChar) = (digitsLE n).map id := by
    apply List.map_congr_left
    intro d hd
    exact charToDigit_digitChar d (digitsLE_lt_ten n d hd)
  rw [h1, List.map_id]
  have h2 : charToDigit (digitChar 0) = 0 := by decide
  rw [h2, valLE_append_zeros, valLE_digitsLE]

/-- Distinct sequence numbers give distinct chunk file names. -/
theorem pad9_injective (a b : Nat) (h : pad9 a = pad9 b) : a = b := by
  have hdata : (padLE a).reverse = (padLE b).reverse := congrArg String.data h
  have hl : padLE a = padLE b := List.reverse_injective hdata
  have := congrArg (fun l => valLE (l.map charToDigit)) hl
  simpa [decode_padLE] using this

/-- Distinct sequence numbers give distinct chunk file paths (for a fixed
work directory). -/
theorem chunkFilePath_injective (wd : String) (a b : Nat)
    (h : chunkFilePath wd a = chunkFilePath wd b) : a = b := by
  apply pad9_injective
  have hdata := congrArg String.data h
  simp only [chunkFilePath, String.data_append, List.append_assoc] at hdata
  have h2 := List.append_cancel_left (List.append_cancel_left hdata)
  exact String.ext h2

/-- `n < 10 ^ k` forces at most `k` decimal digits. -/
theorem digitsLE_length_le (k : Nat) : ∀ n, n < 10 ^ k → (digitsLE n).length ≤ k := by
  induction k with
  | zero =>
    intro n hn
    have : n = 0 := by simpa using hn
    subst this; simp [digitsLE_zero]
  | succ k ih =>
    intro n hn
    rcases Nat.eq_zero_or_pos n with hz | hp
    · subst hz; simp [digitsLE_zero]
    · rw [digitsLE_pos n hp]
      simp only [List.length_cons]
      have : n / 10 < 10 ^ k := by
        rw [Nat.div_lt_iff_lt_mul (by omega)]
        calc n < 10 ^ (k + 1) := hn
        _ = 10 ^ k * 10 := by ring
      exact Nat.succ_le_succ (ih (n / 10) this)

/-- The padded name has exactly 9 characters when the sequence number is
below `10 ^ 9` (the `{:09}` format). -/
theorem pad9_length (n : Nat) (h : n < 10 ^ 9) : (pad9 n).length = 9 := by
  have hle := digitsLE_length_le 9 n h
  have : (padLE n).length = 9 := by
    simp only [padLE, List.length_append, List.length_map, List.length_replicate]
    omega
  simpa [pad9, String.length] using this

/-! ## The `ChunkStore` data model -/

/-- The file system, as the chunk store observes it: a map from path
strings to file contents.  `none` means the file is absent (or, for
`get_chunk`, unreadable). -/
def Fs := String → Option Bytes

/-- The in-memory `ChunkStore` struct, field for field:
`nts_to_chunks : HashMap<NTermID, Vec<(usize, NodeID)>>` becomes a map
from nonterminal ids to occurrence lists (`none` = key absent),
`seen_outputs : HashSet<Vec<u8>>` becomes a duplicate-free list of byte
strings (the code only inserts after a failed `contains`),
`trees : Vec<Tree>` a list, and `work_dir`/`number_of_chunks` as is. -/
structure ChunkStore where
  nts_to_chunks : Nat → Option (List (Nat × Nat))
  seen_outputs : List Bytes
  trees : List Tree
  work_dir : String
  number_of_chunks : Nat

/-- A store together with the file system it writes to. -/
structure Sys where
  cs : ChunkStore
  fs : Fs

/-- `ChunkStore::new(work_dir)`. -/
def ChunkStore.new (workDir : String) : ChunkStore :=
  { nts_to_chunks := fun _ => none
    seen_outputs := []
    trees := []
    work_dir := workDir
    number_of_chunks := 0 }

/-- A fresh system: `ChunkStore::new` over a file system holding no chunk
files yet (the work directory is prepared externally, cf. the test's
`fs::create_dir_all`). -/
def Sys.init (workDir : String) : Sys :=
  { cs := ChunkStore.new workDir, fs := fun _ => none }

/-- `self.trees.len()` — the `trees()` introspection method. -/
def ChunkStore.treeCount (cs : ChunkStore) : Nat := cs.trees.length

/-- `entry(k).or_insert_with(Vec::new).push(v)` on the occurrence map. -/
def mapPush (m : Nat → Option (List (Nat × Nat))) (k : Nat) (v : Nat × Nat) :
    Nat → Option (List (Nat × Nat)) :=
  fun k' => if k' = k then some ((m k).getD [] ++ [v]) else m k'

/-! ## Ingestion: `ChunkStore::add_tree`

The loop body, for node index `i` (cf. chunkstore.rs lines 73–95): skip
if `tree.sizes[i] > 30`; serialize; if the bytes are not in
`seen_outputs`: insert them, push the occurrence `(id, i)` under the
node's nonterminal, `File::create` the file named by the current
`number_of_chunks` (panic on failure), increment the counter, then
`write_all` (panic on failure).  The two `.expect` calls are modelled by
the oracles `cc` (create succeeds at this path) and `cw` (write
succeeds): on failure the result is `Except.error` carrying the state as
mutated so far, i.e. the state the panic leaves behind. -/
def addTreeStep (ctx : Context) (t : Tree) (tid : Nat) (cc cw : String → Bool)
    (st : Sys × Bool) (i : Nat) : Except Sys (Sys × Bool) :=
  let s := st.1
  if t.sizes i > 30 then .ok st
  else
    let buffer := t.unparse i
    if buffer ∈ s.cs.seen_outputs then .ok st
    else
      let cs1 : ChunkStore :=
        { s.cs with
          seen_outputs := buffer :: s.cs.seen_outputs
          nts_to_chunks := mapPush s.cs.nts_to_chunks (ctx.getNt (t.ruleId i)) (tid, i) }
      let path := chunkFilePath s.cs.work_dir cs1.number_of_chunks
      if cc path then
        let cs2 : ChunkStore := { cs1 with number_of_chunks := cs1.number_of_chunks + 1 }
        let fsCreated : Fs := fun p => if p = path then some [] else s.fs p
        if cw path then
          .ok ({ cs := cs2, fs := fun p => if p = path then some buffer else s.fs p }, true)
        else
          .error { cs := cs2, fs := fsCreated }
      else
        .error { cs := cs1, fs := s.fs }

/-- The first `k` iterations of the `for i in 0..tree.size()` loop,
threading `(state, contains_new_chunk)`. -/
def addTreeLoop (s : Sys) (t : Tree) (ctx : Context) (cc cw : String → Bool) :
    Nat → Except Sys (Sys × Bool)
  | 0 => .ok (s, false)
  | k + 1 =>
    (addTreeLoop s t ctx cc cw k).bind
      (fun st => addTreeStep ctx t s.cs.trees.length cc cw st k)

/-- `ChunkStore::add_tree`: run the loop over all nodes, then push the
tree into `self.trees` iff `contains_new_chunk`. -/
def addTree (s : Sys) (t : Tree) (ctx : Context) (cc cw : String → Bool) :
    Except Sys Sys :=
  (addTreeLoop s t ctx cc cw t.size).map
    (fun st =>
      if st.2 then { st.1 with cs := { st.1.cs with trees := st.1.cs.trees ++ [t] } }
      else st.1)

/-! ## Retrieval: `ChunkStore::get_chunk` and `get_alternative_to` -/

/-- `ChunkStore::get_chunk`.  `randId` is the value `thread_rng`'s
`gen_range(0..high)` would return (only consulted when at least two
chunks exist); `File::open`/`read_to_end` failure is the `?`-propagated
`Err` branch. -/
def getChunk (cs : ChunkStore) (fs : Fs) (randId : Nat) : Except Unit Bytes :=
  if cs.number_of_chunks < 2 then .ok []
  else
    match fs (chunkFilePath cs.work_dir randId) with
    | none => .error ()
    | some b => .ok b

/-- `tree.get_rule_id(nid)` for the occurrence `(tid, nid)`, read from the
store's tree collection (`self.trees[tid]`, totalized with a junk tree —
the source panics out of bounds, which the invariant rules out). -/
def ruleIdAt (cs : ChunkStore) (pr : Nat × Nat) : RuleId :=
  (cs.trees.getD pr.1 defaultTree).ruleId pr.2

/-- `IteratorRandom::choose` for an iterator whose size-hint lower bound
is 0 (a `Filter`): scan left to right keeping element `k` (0-based) iff
the uniform draw from `[0, k+1)` — `rolls k % (k + 1)` — equals 0. -/
def chooseAux (rolls : Nat → Nat) : List α → Nat → Option α → Option α
  | [], _, acc => acc
  | x :: xs, k, acc =>
    chooseAux rolls xs (k + 1) (if rolls k % (k + 1) = 0 then some x else acc)

/-- `iter.choose(&mut thread_rng())` with the rolls made explicit. -/
def chooseList (l : List α) (rolls : Nat → Nat) : Option α :=
  chooseAux rolls l 0 none

/-- The occurrence list for `r`'s nonterminal, filtered to occurrences
whose node is currently governed by a different rule (the `.filter`
inside `get_alternative_to`); `[]` when the nonterminal has no entry. -/
def filteredOccs (cs : ChunkStore) (r : RuleId) (ctx : Context) : List (Nat × Nat) :=
  ((cs.nts_to_chunks (ctx.getNt r)).getD []).filter (fun pr => ruleIdAt cs pr ≠ r)

/-- `ChunkStore::get_alternative_to`: look up the occurrence list for the
rule's nonterminal, filter out occurrences currently governed by `r`
itself, and sample one with `choose`.  The source maps the selected
`(tid, nid)` to `(&self.trees[tid], nid)`; we return the index pair. -/
def getAlternativeTo (cs : ChunkStore) (r : RuleId) (ctx : Context)
    (rolls : Nat → Nat) : Option (Nat × Nat) :=
  let chunks := cs.nts_to_chunks (ctx.getNt r)
  let selected :=
    chunks.bind (fun vec =>
      chooseList (vec.filter (fun pr => ruleIdAt cs pr ≠ r)) rolls)
  selected.map (fun pr => pr)

/-! ## Helpers for stating closed witness/counterexample facts -/

/-- The error payload of an `Except`, if any. -/
def errState : Except Sys α → Option Sys
  | .error e => some e
  | .ok _ => none

/-- The success payload of an `Except`, if any. -/
def okState : Except Sys Sys → Option Sys
  | .error _ => none
  | .ok a => some a

/-- Holds when the computation succeeded and its result satisfies `P`. -/
def exOk (e : Except Sys α) (P : α → Prop) : Prop :=
  match e with
  | .ok a => P a
  | .error _ => False

/-! ## Lemmas about the `choose` sampler -/

/-- The last element whose roll hits 0, scanning from index `k`. -/
def lastHit (rolls : Nat → Nat) : List α → Nat → Option α
  | [], _ => none
  | x :: xs, k =>
    match lastHit rolls xs (k + 1) with
    | some y => some y
    | none => if rolls k % (k + 1) = 0 then some x else none

theorem chooseAux_eq (rolls : Nat → Nat) (l : List α) :
    ∀ (k : Nat) (acc : Option α),
      chooseAux rolls l k acc =
        match lastHit rolls l k with
        | some y => some y
        | none => acc := by
  induction l with
  | nil => intro k acc; rfl
  | cons x xs ih =>
    intro k acc
    simp only [chooseAux, lastHit, ih]
    cases lastHit rolls xs (k + 1) with
    | some y => rfl
    | none =>
      by_cases hc : rolls k % (k + 1) = 0 <;> simp [hc]

theorem lastHit_mem (rolls : Nat → Nat) (l : List α) :
    ∀ (k : Nat) (y : α), lastHit rolls l k = some y → y ∈ l := by
  induction l with
  | nil => intro k y h; cases h
  | cons x xs ih =>
    intro k y h
    simp only [lastHit] at h
    cases hxs : lastHit rolls xs (k + 1) with
    | some z =>
      rw [hxs] at h
      cases h
      exact List.mem_cons_of_mem _ (ih (k + 1) y hxs)
    | none =>
      rw [hxs] at h
      by_cases hc : rolls k % (k + 1) = 0
      · rw [if_pos hc] at h; cases h; exact List.mem_cons_self _ _
      · rw [if_neg hc] at h; cases h

/-- A selected element always comes from the list. -/
theorem chooseList_mem (l : List α) (rolls : Nat → Nat) (y : α)
    (h : chooseList l rolls = some y) : y ∈ l := by
  unfold chooseList at h
  rw [chooseAux_eq] at h
  cases hl : lastHit rolls l 0 with
  | some z => rw [hl] at h; cases h; exact lastHit_mem rolls l 0 y hl
  | none => rw [hl] at h; cases h

/-- On a nonempty list the sampler always selects something: the first
element's roll is drawn from `[0, 1)` and is therefore 0. -/
theorem chooseList_ne_none (x : α) (xs : List α) (rolls : Nat → Nat) :
    chooseList (x :: xs) rolls ≠ none := by
  unfold chooseList
  rw [chooseAux_eq]
  simp only [lastHit]
  cases hxs : lastHit rolls xs 1 with
  | some z => simp
  | none => simp [Nat.mod_one]

theorem chooseList_nil (rolls : Nat → Nat) : chooseList ([] : List α) rolls = none := rfl

/-! ## Claim C6: `get_alternative_to` filtering and empty results -/

/-- C6: `get_alternative_to(r, ctx)` returns an empty result exactly when
no occurrence list exists for `r`'s nonterminal or no occurrence survives
the filter, and any returned pair is one of the surviving occurrences, so
its node, as currently read from its stored tree, is governed by a rule
different from `r`. -/
theorem get_alternative_to_spec (cs : ChunkStore) (r : RuleId) (ctx : Context)
    (rolls : Nat → Nat) :
    (getAlternativeTo cs r ctx rolls = none ↔
      (cs.nts_to_chunks (ctx.getNt r) = none ∨ filteredOccs cs r ctx = [])) ∧
    (∀ pr, getAlternativeTo cs r ctx rolls = some pr →
      pr ∈ filteredOccs cs r ctx ∧ ruleIdAt cs pr ≠ r) := by
  unfold getAlternativeTo filteredOccs
  cases hnt : cs.nts_to_chunks (ctx.getNt r) with
  | none =>
    refine ⟨by simp [Option.bind], ?_⟩
    intro pr h
    simp [Option.bind] at h
  | some vec =>
    simp only [Option.getD, Option.bind]
    constructor
    · constructor
      · intro h
        right
        cases hfil : vec.filter (fun pr => decide (ruleIdAt cs pr ≠ r)) with
        | nil => rfl
        | cons x xs =>
          rw [hfil] at h
          simp only [Option.map_eq_none'] at h
          exact absurd h (chooseList_ne_none x xs rolls)
      · intro h
        rcases h with h | h
        · cases h
        · rw [h, chooseList_nil]
          rfl
    · intro pr h
      simp only [Option.map_eq_some'] at h
      obtain ⟨q, hq, hqp⟩ := h
      cases hqp
      have hmem := chooseList_mem _ rolls pr hq
      refine ⟨hmem, ?_⟩
      have := (List.mem_filter.mp hmem).2
      simpa using this

/-- A concrete store for witnesses: one tree with two nodes, governed by
rules 3 and 4 (both of nonterminal 5), with occurrences recorded for
both. -/
def witnessStore : ChunkStore :=
  { nts_to_chunks := fun k => if k = 5 then some [(0, 0), (0, 1)] else none
    seen_outputs := [[2], [1]]
    trees := [{ size := 2, sizes := fun _ => 1,
                ruleId := fun n => if n = 0 then 3 else 4,
                unparse := fun n => [n + 1] }]
    work_dir := "w"
    number_of_chunks := 2 }

/-- The context for `witnessStore`: every rule belongs to nonterminal 5. -/
def witnessCtx : Context := ⟨fun _ => 5⟩

/-- C6 witness: on `witnessStore`, querying alternatives to rule 3 selects
the occurrence `(0, 1)`, which survives the filter and is governed by
rule 4 ≠ 3. -/
theorem get_alternative_to_spec_witness :
    getAlternativeTo witnessStore 3 witnessCtx (fun _ => 0) = some (0, 1) ∧
    (0, 1) ∈ filteredOccs witnessStore 3 witnessCtx ∧
    ruleIdAt witnessStore (0, 1) ≠ 3 :=
  ⟨rfl, (get_alternative_to_spec witnessStore 3 witnessCtx (fun _ => 0)).2 (0, 1) rfl⟩

/-! ## Claims C7 and C8: `get_chunk` -/

/-- C7: with fewer than 2 chunks recorded, `get_chunk` succeeds with an
empty byte sequence and does not consult the file system. -/
theorem get_chunk_empty_bound (cs : ChunkStore) (fs : Fs) (randId : Nat)
    (h : cs.number_of_chunks < 2) :
    getChunk cs fs randId = .ok [] ∧
    (∀ fs', getChunk cs fs' randId = getChunk cs fs randId) := by
  constructor
  · unfold getChunk; rw [if_pos h]
  · intro fs'
    unfold getChunk; rw [if_pos h, if_pos h]

/-- C7 witness: a fresh store has 0 chunks and `get_chunk` returns `Ok([])`. -/
theorem get_chunk_empty_bound_witness :
    getChunk (ChunkStore.new "w") (fun _ => none) 0 = .ok [] :=
  (get_chunk_empty_bound (ChunkStore.new "w") (fun _ => none) 0 (by decide)).1

/-- C8: with at least 2 chunks, `get_chunk` on drawn id `randId` (a value
of `gen_range(0..number_of_chunks)`, hence `< number_of_chunks`) reads
exactly the file `<work_dir>/outputs/chunks/chunk_<randId, 9 digits>`:
it returns the file's bytes when present, surfaces a recoverable error
when the open/read fails, and its result depends on no other path. -/
theorem get_chunk_reads_exactly (cs : ChunkStore) (fs : Fs) (randId : Nat)
    (h2 : 2 ≤ cs.number_of_chunks) (hid : randId < cs.number_of_chunks) :
    (∀ b, fs (chunkFilePath cs.work_dir randId) = some b →
      getChunk cs fs randId = .ok b) ∧
    (fs (chunkFilePath cs.work_dir randId) = none →
      getChunk cs fs randId = .error ()) ∧
    (∀ fs' : Fs, fs' (chunkFilePath cs.work_dir randId) = fs (chunkFilePath cs.work_dir randId) →
      getChunk cs fs' randId = getChunk cs fs randId) := by
  have hge : ¬ cs.number_of_chunks < 2 := by omega
  refine ⟨?_, ?_, ?_⟩
  · intro b hb
    unfold getChunk; rw [if_neg hge, hb]
  · intro hn
    unfold getChunk; rw [if_neg hge, hn]
  · intro fs' hsame
    unfold getChunk; rw [if_neg hge, if_neg hge, hsame]

/-- C8 witness: two chunk files on disk, id 0 drawn, bytes of file 0
returned. -/
theorem get_chunk_reads_exactly_witness :
    getChunk { ChunkStore.new "w" with number_of_chunks := 2 }
      (fun p => if p = chunkFilePath "w" 0 then some [9] else none) 0 = .ok [9] :=
  (get_chunk_reads_exactly { ChunkStore.new "w" with number_of_chunks := 2 }
    (fun p => if p = chunkFilePath "w" 0 then some [9] else none) 0
    (by decide) (by decide)).1 [9] (if_pos rfl)

/-! ## The `add_tree` loop: step characterization -/

/-- The in-memory bookkeeping for a novel chunk at node `i`: insert the
bytes into `seen_outputs` and push the occurrence under the node's
nonterminal.  In the source this happens before `File::create`. -/
def insCs (cs : ChunkStore) (ctx : Context) (t : Tree) (tid i : Nat) : ChunkStore :=
  { nts_to_chunks := mapPush cs.nts_to_chunks (ctx.getNt (t.ruleId i)) (tid, i)
    seen_outputs := t.unparse i :: cs.seen_outputs
    trees := cs.trees
    work_dir := cs.work_dir
    number_of_chunks := cs.number_of_chunks }

/-- Exhaustive case analysis of one loop iteration of `add_tree`. -/
theorem addTreeStep_spec (ctx : Context) (t : Tree) (tid : Nat) (cc cw : String → Bool)
    (st : Sys × Bool) (i : Nat) :
    ((30 < t.sizes i ∨ t.unparse i ∈ st.1.cs.seen_outputs) ∧
      addTreeStep ctx t tid cc cw st i = .ok st) ∨
    (¬ 30 < t.sizes i ∧ t.unparse i ∉ st.1.cs.seen_outputs ∧
      ((cc (chunkFilePath st.1.cs.work_dir st.1.cs.number_of_chunks) = true ∧
        cw (chunkFilePath st.1.cs.work_dir st.1.cs.number_of_chunks) = true ∧
        addTreeStep ctx t tid cc cw st i = .ok
          ({ cs := { insCs st.1.cs ctx t tid i with
                       number_of_chunks := st.1.cs.number_of_chunks + 1 }
             fs := fun p =>
               if p = chunkFilePath st.1.cs.work_dir st.1.cs.number_of_chunks
               then some (t.unparse i) else st.1.fs p }, true)) ∨
       (cc (chunkFilePath st.1.cs.work_dir st.1.cs.number_of_chunks) = true ∧
        cw (chunkFilePath st.1.cs.work_dir st.1.cs.number_of_chunks) = false ∧
        addTreeStep ctx t tid cc cw st i = .error
          { cs := { insCs st.1.cs ctx t tid i with
                      number_of_chunks := st.1.cs.number_of_chunks + 1 }
            fs := fun p =>
              if p = chunkFilePath st.1.cs.work_dir st.1.cs.number_of_chunks
              then some [] else st.1.fs p }) ∨
       (cc (chunkFilePath st.1.cs.work_dir st.1.cs.number_of_chunks) = false ∧
        addTreeStep ctx t tid cc cw st i = .error
          { cs := insCs st.1.cs ctx t tid i
            fs := st.1.fs }))) := by
  by_cases h30 : 30 < t.sizes i
  · exact Or.inl ⟨Or.inl h30, by simp [addTreeStep, h30]⟩
  · by_cases hmem : t.unparse i ∈ st.1.cs.seen_outputs
    · exact Or.inl ⟨Or.inr hmem, by simp [addTreeStep, h30, hmem]⟩
    · refine Or.inr ⟨h30, hmem, ?_⟩
      by_cases hcc : cc (chunkFilePath st.1.cs.work_dir st.1.cs.number_of_chunks) = true
      · by_cases hcw : cw (chunkFilePath st.1.cs.work_dir st.1.cs.number_of_chunks) = true
        · refine Or.inl ⟨hcc, hcw, ?_⟩
          simp only [addTreeStep, if_neg h30, if_neg hmem, hcc, if_pos, hcw]
          rfl
        · refine Or.inr (Or.inl ⟨hcc, Bool.not_eq_true _ ▸ hcw, ?_⟩)
          simp only [addTreeStep, if_neg h30, if_neg hmem, hcc, if_pos, hcw, if_neg]
          rfl
      · refine Or.inr (Or.inr ⟨Bool.not_eq_true _ ▸ hcc, ?_⟩)
        simp only [addTreeStep, if_neg h30, if_neg hmem, hcc, if_neg]
        rfl

/-! ## The loop invariant of `add_tree` -/

/-- Everything the claims need about a successful prefix of `k` loop
iterations of `add_tree`, relating the loop state `st` to the starting
system `s`.  `new` ranges over the bytes inserted by the prefix. -/
structure LoopSpec (s : Sys) (t : Tree) (ctx : Context) (k : Nat) (st : Sys × Bool) : Prop where
  wd : st.1.cs.work_dir = s.cs.work_dir
  trees_eq : st.1.cs.trees = s.cs.trees
  seen : ∃ new : List Bytes,
    st.1.cs.seen_outputs = new ++ s.cs.seen_outputs ∧
    st.1.cs.number_of_chunks = s.cs.number_of_chunks + new.length ∧
    (st.2 = true ↔ new ≠ []) ∧
    ∀ b ∈ new, ∃ i, i < k ∧ t.sizes i ≤ 30 ∧ t.unparse i = b ∧ b ∉ s.cs.seen_outputs
  nodup : s.cs.seen_outputs.Nodup → st.1.cs.seen_outputs.Nodup
  allSeen : ∀ j, j < k → t.sizes j ≤ 30 → t.unparse j ∈ st.1.cs.seen_outputs
  occs : ∀ nt, st.1.cs.nts_to_chunks nt = s.cs.nts_to_chunks nt ∨
    ∃ add, add ≠ [] ∧
      st.1.cs.nts_to_chunks nt = some ((s.cs.nts_to_chunks nt).getD [] ++ add) ∧
      ∀ pr ∈ add, pr.1 = s.cs.trees.length ∧ pr.2 < k ∧ t.sizes pr.2 ≤ 30 ∧
        nt = ctx.getNt (t.ruleId pr.2) ∧
        t.unparse pr.2 ∈ st.1.cs.seen_outputs ∧
        t.unparse pr.2 ∉ s.cs.seen_outputs ∧
        ∀ j, j < pr.2 → t.sizes j ≤ 30 → t.unparse j ≠ t.unparse pr.2
  fs_pres : ∀ p, (∀ n, s.cs.number_of_chunks ≤ n → p ≠ chunkFilePath s.cs.work_dir n) →
    st.1.fs p = s.fs p
  fs_new : ∀ n, s.cs.number_of_chunks ≤ n → n < st.1.cs.number_of_chunks →
    ∃ i, i < k ∧ t.sizes i ≤ 30 ∧
      st.1.fs (chunkFilePath s.cs.work_dir n) = some (t.unparse i) ∧
      t.unparse i ∉ s.cs.seen_outputs ∧ t.unparse i ∈ st.1.cs.seen_outputs
  fs_dom : ∀ p, st.1.fs p ≠ s.fs p →
    ∃ n, s.cs.number_of_chunks ≤ n ∧ n < st.1.cs.number_of_chunks ∧
      p = chunkFilePath s.cs.work_dir n
  complete : ∀ i, i < k → t.sizes i ≤ 30 → t.unparse i ∉ s.cs.seen_outputs →
    (∀ j, j < i → t.sizes j ≤ 30 → t.unparse j ≠ t.unparse i) →
    t.unparse i ∈ st.1.cs.seen_outputs ∧
    (∃ l, st.1.cs.nts_to_chunks (ctx.getNt (t.ruleId i)) = some l ∧
      (s.cs.trees.length, i) ∈ l) ∧
    ∃ n, s.cs.number_of_chunks ≤ n ∧ n < st.1.cs.number_of_chunks ∧
      st.1.fs (chunkFilePath s.cs.work_dir n) = some (t.unparse i)

/-- A successful loop prefix satisfies the invariant. -/
theorem addTreeLoop_spec (s : Sys) (t : Tree) (ctx : Context) (cc cw : String → Bool) :
    ∀ k st, addTreeLoop s t ctx cc cw k = .ok st → LoopSpec s t ctx k st := by
  intro k
  induction k with
  | zero =>
    intro st h
    cases h
    refine
      { wd := rfl
        trees_eq := rfl
        seen := ⟨[], rfl, rfl, by simp, by simp⟩
        nodup := fun h => h
        allSeen := fun j hj => absurd hj (Nat.not_lt_zero j)
        occs := fun nt => Or.inl rfl
        fs_pres := fun p _ => rfl
        fs_new := fun n hn1 hn2 => absurd (Nat.lt_of_le_of_lt hn1 hn2) (Nat.lt_irrefl _)
        fs_dom := fun p hp => absurd rfl hp
        complete := fun i hi => absurd hi (Nat.not_lt_zero i) }
  | succ k ih =>
    intro st h
    simp only [addTreeLoop] at h
    cases hl : addTreeLoop s t ctx cc cw k with
    | error e => rw [hl] at h; exact Except.noConfusion h
    | ok stp =>
      rw [hl] at h
      replace h : addTreeStep ctx t s.cs.trees.length cc cw stp k = .ok st := h
      have IH := ih stp hl
      obtain ⟨new, hseq, hnoc, hflag, hnewspec⟩ := IH.seen
      rcases addTreeStep_spec ctx t s.cs.trees.length cc cw stp k with
        ⟨hskip, heq⟩ | ⟨h30, hmem, hcase⟩
      · -- skipped: oversized subtree or already-seen bytes; state unchanged
        rw [heq] at h
        cases h
        refine
          { wd := IH.wd
            trees_eq := IH.trees_eq
            seen := ⟨new, hseq, hnoc, hflag, ?_⟩
            nodup := IH.nodup
            allSeen := ?_
            occs := fun nt => (IH.occs nt).imp id ?_
            fs_pres := IH.fs_pres
            fs_new := ?_
            fs_dom := IH.fs_dom
            complete := ?_ }
        · intro b hb
          obtain ⟨i, hik, hsz, hup, hns⟩ := hnewspec b hb
          exact ⟨i, Nat.lt_succ_of_lt hik, hsz, hup, hns⟩
        · intro j hj hsz
          rcases Nat.lt_succ_iff_lt_or_eq.mp hj with hj' | hj'
          · exact IH.allSeen j hj' hsz
          · subst hj'
            rcases hskip with hbig | hin
            · omega
            · exact hin
        · rintro ⟨add, hne, hadd, hP⟩
          refine ⟨add, hne, hadd, ?_⟩
          intro pr hpr
          obtain ⟨p1, p2, p3, p4, p5, p6, p7⟩ := hP pr hpr
          exact ⟨p1, Nat.lt_succ_of_lt p2, p3, p4, p5, p6, p7⟩
        · intro n hn1 hn2
          obtain ⟨i, hik, hsz, hf, hns, hin⟩ := IH.fs_new n hn1 hn2
          exact ⟨i, Nat.lt_succ_of_lt hik, hsz, hf, hns, hin⟩
        · intro i hi hsz hns hleast
          rcases Nat.lt_succ_iff_lt_or_eq.mp hi with hi' | hi'
          · exact IH.complete i hi' hsz hns hleast
          · subst hi'
            rcases hskip with hbig | hin
            · omega
            · rw [hseq] at hin
              rcases List.mem_append.mp hin with hinn | hins
              · obtain ⟨i', hik', hsz', hup', _⟩ := hnewspec _ hinn
                exact absurd hup' (hleast i' hik' hsz')
              · exact absurd hins hns
      · -- novel bytes at node k
        have hb_nin_s : t.unparse k ∉ s.cs.seen_outputs := by
          intro hin
          exact hmem (hseq ▸ List.mem_append_right new hin)
        have hsz30 : t.sizes k ≤ 30 := by omega
        have hleastk : ∀ j, j < k → t.sizes j ≤ 30 → t.unparse j ≠ t.unparse k := by
          intro j hj hsz hcontra
          exact hmem (hcontra ▸ IH.allSeen j hj hsz)
        have hpath : chunkFilePath stp.1.cs.work_dir stp.1.cs.number_of_chunks =
            chunkFilePath s.cs.work_dir (s.cs.number_of_chunks + new.length) := by
          rw [IH.wd, hnoc]
        rcases hcase with ⟨hcc, hcw, heq⟩ | ⟨hcc, hcw, heq⟩ | ⟨hcc, heq⟩
        · -- create and write both succeed
          rw [heq] at h
          cases h
          refine
            { wd := IH.wd
              trees_eq := IH.trees_eq
              seen := ⟨t.unparse k :: new, ?_, ?_, by simp, ?_⟩
              nodup := ?_
              allSeen := ?_
              occs := ?_
              fs_pres := ?_
              fs_new := ?_
              fs_dom := ?_
              complete := ?_ }
          · simp only [insCs, List.cons_append]
            rw [hseq]
          · simp only [insCs, List.length_cons]
            omega
          · intro b hb
            rcases List.mem_cons.mp hb with hb' | hb'
            · subst hb'
              exact ⟨k, Nat.lt_succ_self k, hsz30, rfl, hb_nin_s⟩
            · obtain ⟨i, hik, hsz, hup, hns⟩ := hnewspec b hb'
              exact ⟨i, Nat.lt_succ_of_lt hik, hsz, hup, hns⟩
          · intro hnd
            simp only [insCs]
            exact List.Nodup.cons hmem (IH.nodup hnd)
          · intro j hj hsz
            simp only [insCs]
            rcases Nat.lt_succ_iff_lt_or_eq.mp hj with hj' | hj'
            · exact List.mem_cons_of_mem _ (IH.allSeen j hj' hsz)
            · subst hj'; exact List.mem_cons_self _ _
          · intro nt
            simp only [insCs, mapPush]
            by_cases hnt : nt = ctx.getNt (t.ruleId k)
            · rw [if_pos hnt]
              right
              rcases IH.occs nt with hsame | ⟨add, hne, hadd, hP⟩
              · rw [hnt] at hsame
                rw [hsame]
                refine ⟨[(s.cs.trees.length, k)], by simp, by rw [hnt], ?_⟩
                intro pr hpr
                rcases List.mem_singleton.mp hpr with rfl
                exact ⟨rfl, Nat.lt_succ_self k, hsz30, hnt, List.mem_cons_self _ _,
                  hb_nin_s, hleastk⟩
              · rw [hnt] at hadd
                rw [hadd]
                refine ⟨add ++ [(s.cs.trees.length, k)], by simp,
                  by rw [hnt, Option.getD_some, List.append_assoc], ?_⟩
                intro pr hpr
                rcases List.mem_append.mp hpr with hpr' | hpr'
                · obtain ⟨p1, p2, p3, p4, p5, p6, p7⟩ := hP pr hpr'
                  exact ⟨p1, Nat.lt_succ_of_lt p2, p3, p4,
                    List.mem_cons_of_mem _ p5, p6, p7⟩
                · rcases List.mem_singleton.mp hpr' with rfl
                  exact ⟨rfl, Nat.lt_succ_self k, hsz30, hnt, List.mem_cons_self _ _,
                    hb_nin_s, hleastk⟩
            · rw [if_neg hnt]
              rcases IH.occs nt with hsame | ⟨add, hne, hadd, hP⟩
              · exact Or.inl hsame
              · right
                refine ⟨add, hne, hadd, ?_⟩
                intro pr hpr
                obtain ⟨p1, p2, p3, p4, p5, p6, p7⟩ := hP pr hpr
                exact ⟨p1, Nat.lt_succ_of_lt p2, p3, p4,
                  List.mem_cons_of_mem _ p5, p6, p7⟩
          · intro p hp
            have hne : p ≠ chunkFilePath stp.1.cs.work_dir stp.1.cs.number_of_chunks := by
              rw [hpath]
              exact hp _ (Nat.le_add_right _ _)
            simp only [if_neg hne]
            exact IH.fs_pres p hp
          · intro n hn1 hn2
            simp only [insCs] at hn2 ⊢
            rw [hnoc] at hn2
            rcases Nat.lt_succ_iff_lt_or_eq.mp hn2 with hn2' | hn2'
            · obtain ⟨i, hik, hsz, hf, hns, hin⟩ := IH.fs_new n hn1 (by omega)
              have hne : chunkFilePath s.cs.work_dir n ≠
                  chunkFilePath stp.1.cs.work_dir stp.1.cs.number_of_chunks := by
                rw [hpath]
                intro hcontra
                exact absurd (chunkFilePath_injective _ _ _ hcontra) (by omega)
              refine ⟨i, Nat.lt_succ_of_lt hik, hsz, ?_, hns, ?_⟩
              · simp only [if_neg hne]
                exact hf
              · exact List.mem_cons_of_mem _ hin
            · subst hn2'
              refine ⟨k, Nat.lt_succ_self k, hsz30, ?_, hb_nin_s, List.mem_cons_self _ _⟩
              rw [← hpath]
              simp
          · intro p hp
            by_cases hpe : p = chunkFilePath stp.1.cs.work_dir stp.1.cs.number_of_chunks
            · refine ⟨s.cs.number_of_chunks + new.length, Nat.le_add_right _ _, ?_, ?_⟩
              · simp only [insCs]; omega
              · rw [hpe, hpath]
            · simp only [if_neg hpe] at hp
              obtain ⟨n, hn1, hn2, hn3⟩ := IH.fs_dom p hp
              refine ⟨n, hn1, ?_, hn3⟩
              simp only [insCs]
              omega
          · intro i hi hsz hns hleast
            rcases Nat.lt_succ_iff_lt_or_eq.mp hi with hi' | hi'
            · obtain ⟨hse, ⟨l, hl, hmeml⟩, n, hn1, hn2, hn3⟩ :=
                IH.complete i hi' hsz hns hleast
              refine ⟨List.mem_cons_of_mem _ hse, ?_, ?_⟩
              · simp only [insCs, mapPush]
                by_cases hkey : ctx.getNt (t.ruleId i) = ctx.getNt (t.ruleId k)
                · rw [if_pos hkey]
                  refine ⟨(stp.1.cs.nts_to_chunks (ctx.getNt (t.ruleId k))).getD [] ++
                      [(s.cs.trees.length, k)], rfl, ?_⟩
                  rw [← hkey, hl, Option.getD_some]
                  exact List.mem_append_left _ hmeml
                · rw [if_neg hkey]
                  exact ⟨l, hl, hmeml⟩
              · have hne : chunkFilePath s.cs.work_dir n ≠
                    chunkFilePath stp.1.cs.work_dir stp.1.cs.number_of_chunks := by
                  rw [hpath]
                  intro hcontra
                  have := chunkFilePath_injective _ _ _ hcontra
                  omega
                refine ⟨n, hn1, ?_, ?_⟩
                · simp only [insCs]; omega
                · simp only [if_neg hne]
                  exact hn3
            · subst hi'
              refine ⟨List.mem_cons_self _ _, ?_, ?_⟩
              · simp only [insCs, mapPush, if_pos rfl]
                exact ⟨(stp.1.cs.nts_to_chunks (ctx.getNt (t.ruleId i))).getD [] ++
                    [(s.cs.trees.length, i)], rfl, List.mem_append_right _ (by simp)⟩
              · refine ⟨s.cs.number_of_chunks + new.length, Nat.le_add_right _ _, ?_, ?_⟩
                · simp only [insCs]; omega
                · rw [← hpath]
                  simp
        · -- write fails: loop would have panicked, contradiction with ok
          rw [heq] at h
          exact Except.noConfusion h
        · -- create fails: loop would have panicked, contradiction with ok
          rw [heq] at h
          exact Except.noConfusion h

/-! ## From the loop to `add_tree` -/

/-- A successful `add_tree` is a successful full loop followed by the
conditional `self.trees.push(tree)`. -/
theorem addTree_ok_cases (s : Sys) (t : Tree) (ctx : Context) (cc cw : String → Bool)
    (s' : Sys) (h : addTree s t ctx cc cw = .ok s') :
    ∃ st, addTreeLoop s t ctx cc cw t.size = .ok st ∧
      s' = (if st.2 then { st.1 with cs := { st.1.cs with trees := st.1.cs.trees ++ [t] } }
            else st.1) := by
  unfold addTree at h
  cases hl : addTreeLoop s t ctx cc cw t.size with
  | error e => rw [hl] at h; exact Except.noConfusion h
  | ok st =>
    rw [hl] at h
    replace h : Except.ok (if st.2 then
        { st.1 with cs := { st.1.cs with trees := st.1.cs.trees ++ [t] } }
      else st.1) = Except.ok s' := h
    cases h
    exact ⟨st, rfl, rfl⟩

/-- A failed `add_tree` is a failed loop (the tree is never pushed). -/
theorem addTree_error_cases (s : Sys) (t : Tree) (ctx : Context) (cc cw : String → Bool)
    (e : Sys) (h : addTree s t ctx cc cw = .error e) :
    addTreeLoop s t ctx cc cw t.size = .error e := by
  unfold addTree at h
  cases hl : addTreeLoop s t ctx cc cw t.size with
  | error e0 =>
    rw [hl] at h
    replace h : Except.error e0 = Except.error e := h
    cases h
    rfl
  | ok st => rw [hl] at h; exact Except.noConfusion h

/-- The components of the post-push state that the push leaves alone. -/
theorem addTree_untouched (s : Sys) (t : Tree) (st : Sys × Bool) (s' : Sys)
    (h : s' = (if st.2 then { st.1 with cs := { st.1.cs with trees := st.1.cs.trees ++ [t] } }
               else st.1)) :
    s'.cs.seen_outputs = st.1.cs.seen_outputs ∧
    s'.cs.number_of_chunks = st.1.cs.number_of_chunks ∧
    s'.cs.work_dir = st.1.cs.work_dir ∧
    s'.cs.nts_to_chunks = st.1.cs.nts_to_chunks ∧
    s'.fs = st.1.fs := by
  subst h
  by_cases hf : st.2 = true <;> simp [hf]

/-! ## The state invariants (claims C2 and C3) -/

/-- The `ChunkStore` consistency invariant of the spec: the dedup set's
cardinality equals `number_of_chunks`, and the persisted chunk files are
exactly `chunk_000000000 .. chunk_<number_of_chunks-1>` under
`<work_dir>/outputs/chunks/`. -/
def storeInv (s : Sys) : Prop :=
  s.cs.seen_outputs.length = s.cs.number_of_chunks ∧
  s.cs.seen_outputs.Nodup ∧
  (∀ n, (s.fs (chunkFilePath s.cs.work_dir n)).isSome ↔ n < s.cs.number_of_chunks) ∧
  (∀ p, (s.fs p).isSome → ∃ n, n < s.cs.number_of_chunks ∧ p = chunkFilePath s.cs.work_dir n)

/-- Occurrence-record validity: every `(TreeIndex, NodeID)` in the
occurrence index points inside the tree collection, and its node id is a
valid index into that tree. -/
def occInv (s : Sys) : Prop :=
  ∀ nt l, s.cs.nts_to_chunks nt = some l →
    ∀ pr ∈ l, pr.1 < s.cs.trees.length ∧
      pr.2 < (s.cs.trees.getD pr.1 defaultTree).size

/-- C2: a successful `add_tree` preserves the store invariant; existing
files are never modified, renamed or deleted; chunk file paths are
injective in the sequence number; the name is 9 digits for sequence
numbers below `10^9`; and a fresh store satisfies the invariant. -/
theorem chunkstore_invariant (s : Sys) (t : Tree) (ctx : Context)
    (cc cw : String → Bool) (s' : Sys)
    (hinv : storeInv s) (h : addTree s t ctx cc cw = .ok s') :
    storeInv s' ∧ s'.cs.work_dir = s.cs.work_dir ∧
    (∀ p, (s.fs p).isSome → s'.fs p = s.fs p) ∧
    (∀ wd a b, chunkFilePath wd a = chunkFilePath wd b → a = b) ∧
    (∀ n, n < 10 ^ 9 → (pad9 n).length = 9) ∧
    (∀ wd, storeInv (Sys.init wd)) := by
  obtain ⟨hlen, hnd, hfile, hdom⟩ := hinv
  obtain ⟨st, hloop, hs'⟩ := addTree_ok_cases s t ctx cc cw s' h
  have L := addTreeLoop_spec s t ctx cc cw t.size st hloop
  obtain ⟨hseen, hnoc, hwd, hnts, hfs⟩ := addTree_untouched s t st s' hs'
  obtain ⟨new, hseq, hnc, hflag, hnewspec⟩ := L.seen
  have hwd' : s'.cs.work_dir = s.cs.work_dir := by rw [hwd, L.wd]
  have hpres : ∀ p, (s.fs p).isSome → s'.fs p = s.fs p := by
    intro p hp
    obtain ⟨n, hn, hpn⟩ := hdom p hp
    rw [hfs]
    apply L.fs_pres
    intro m hm hcontra
    rw [hpn] at hcontra
    have := chunkFilePath_injective _ _ _ hcontra
    omega
  refine ⟨⟨?_, ?_, ?_, ?_⟩, hwd', hpres, fun wd a b => chunkFilePath_injective wd a b,
    fun n hn => pad9_length n hn, ?_⟩
  · rw [hseen, hseq, hnoc, hnc, List.length_append, hlen]
    omega
  · rw [hseen]
    exact L.nodup hnd
  · intro n
    rw [hwd', hfs, hnoc, hnc]
    constructor
    · intro hsome
      by_cases hch : st.1.fs (chunkFilePath s.cs.work_dir n) = s.fs (chunkFilePath s.cs.work_dir n)
      · rw [hch] at hsome
        have := (hfile n).mp hsome
        omega
      · obtain ⟨m, hm1, hm2, hm3⟩ := L.fs_dom _ hch
        have := chunkFilePath_injective _ _ _ hm3
        subst this
        omega
    · intro hn
      by_cases hsmall : n < s.cs.number_of_chunks
      · have hp : st.1.fs (chunkFilePath s.cs.work_dir n) = s.fs (chunkFilePath s.cs.work_dir n) := by
          apply L.fs_pres
          intro m hm hcontra
          have := chunkFilePath_injective _ _ _ hcontra
          omega
        rw [hp]
        exact (hfile n).mpr hsmall
      · obtain ⟨i, _, _, hsome, _, _⟩ := L.fs_new n (by omega) (by omega)
        rw [hsome]
        rfl
  · intro p hp
    rw [hfs] at hp
    rw [hwd', hnoc, hnc]
    by_cases hch : st.1.fs p = s.fs p
    · rw [hch] at hp
      obtain ⟨n, hn, hpn⟩ := hdom p hp
      exact ⟨n, by omega, hpn⟩
    · obtain ⟨n, hn1, hn2, hn3⟩ := L.fs_dom p hch
      rw [hnc] at hn2
      exact ⟨n, by omega, hn3⟩
  · intro wd
    refine ⟨rfl, List.nodup_nil, ?_, ?_⟩
    · intro n
      simp [Sys.init, ChunkStore.new]
    · intro p hp
      simp [Sys.init] at hp

/-- C3: a successful `add_tree` preserves occurrence-record validity; a
tree contributing zero novel chunks (the chunk counter did not move)
leaves both the tree collection and the occurrence index untouched, so it
is unreachable through any occurrence record; and consequently the
`self.trees[tid]` indexing in `get_alternative_to` is in bounds (with a
valid node id) whenever it returns an occurrence. -/
theorem occurrence_validity (s : Sys) (t : Tree) (ctx : Context)
    (cc cw : String → Bool) (s' : Sys)
    (hocc : occInv s) (h : addTree s t ctx cc cw = .ok s') :
    occInv s' ∧
    (s'.cs.number_of_chunks = s.cs.number_of_chunks →
      s'.cs.trees = s.cs.trees ∧ s'.cs.nts_to_chunks = s.cs.nts_to_chunks) ∧
    (∀ r rolls pr, getAlternativeTo s'.cs r ctx rolls = some pr →
      pr.1 < s'.cs.trees.length ∧ pr.2 < (s'.cs.trees.getD pr.1 defaultTree).size) ∧
    (∀ wd, occInv (Sys.init wd)) := by
  obtain ⟨st, hloop, hs'⟩ := addTree_ok_cases s t ctx cc cw s' h
  have L := addTreeLoop_spec s t ctx cc cw t.size st hloop
  obtain ⟨hseen, hnoc, hwd, hnts, hfs⟩ := addTree_untouched s t st s' hs'
  obtain ⟨new, hseq, hnc, hflag, hnewspec⟩ := L.seen
  have htrees_cases : s'.cs.trees = s.cs.trees ∨
      (st.2 = true ∧ s'.cs.trees = s.cs.trees ++ [t]) := by
    rw [hs']
    by_cases hf : st.2 = true
    · right
      refine ⟨hf, ?_⟩
      simp [hf, L.trees_eq]
    · left
      simp [hf, L.trees_eq]
  have htlen : s.cs.trees.length ≤ s'.cs.trees.length := by
    rcases htrees_cases with he | ⟨_, he⟩ <;> rw [he] <;> simp
  have hgetD_low : ∀ m, m < s.cs.trees.length →
      s'.cs.trees.getD m defaultTree = s.cs.trees.getD m defaultTree := by
    intro m hm
    rcases htrees_cases with he | ⟨_, he⟩
    · rw [he]
    · rw [he, List.getD_append _ _ _ _ hm]
  have hocc' : occInv s' := by
    intro nt l' hl' pr hpr
    rw [hnts] at hl'
    rcases L.occs nt with hsame | ⟨add, hne, hadd, hP⟩
    · rw [hsame] at hl'
      obtain ⟨h1, h2⟩ := hocc nt l' hl' pr hpr
      exact ⟨Nat.lt_of_lt_of_le h1 htlen, by rw [hgetD_low pr.1 h1]; exact h2⟩
    · rw [hadd] at hl'
      injection hl' with hl'
      subst hl'
      rcases List.mem_append.mp hpr with hold | hadd'
      · cases hs0 : s.cs.nts_to_chunks nt with
        | none => rw [hs0] at hold; simp at hold
        | some l0 =>
          rw [hs0] at hold
          rw [Option.getD_some] at hold
          obtain ⟨h1, h2⟩ := hocc nt l0 hs0 pr hold
          exact ⟨Nat.lt_of_lt_of_le h1 htlen, by rw [hgetD_low pr.1 h1]; exact h2⟩
      · obtain ⟨p1, p2, p3, p4, p5, p6, p7⟩ := hP pr hadd'
        have hinnew : t.unparse pr.2 ∈ new := by
          rw [hseq] at p5
          rcases List.mem_append.mp p5 with h' | h'
          · exact h'
          · exact absurd h' p6
        have hpush : st.2 = true := hflag.mpr (List.ne_nil_of_mem hinnew)
        have he : s'.cs.trees = s.cs.trees ++ [t] := by
          rw [hs']
          simp [hpush, L.trees_eq]
        rw [he, p1]
        constructor
        · simp
        · rw [List.getD_append_right _ _ _ _ (le_refl _)]
          simp [p2]
  refine ⟨hocc', ?_, ?_, ?_⟩
  · intro hnoceq
    have hnew_nil : new = [] := by
      rw [hnoc, hnc] at hnoceq
      have : new.length = 0 := by omega
      exact List.length_eq_zero.mp this
    have hflag_false : ¬ st.2 = true := by
      intro hf
      exact (hflag.mp hf) hnew_nil
    constructor
    · rw [hs']
      simp [hflag_false, L.trees_eq]
    · rw [hnts]
      funext nt
      rcases L.occs nt with hsame | ⟨add, hne, hadd, hP⟩
      · exact hsame
      · obtain ⟨pr, hpr⟩ := List.exists_mem_of_ne_nil add hne
        obtain ⟨p1, p2, p3, p4, p5, p6, p7⟩ := hP pr hpr
        rw [hseq, hnew_nil, List.nil_append] at p5
        exact absurd p5 p6
  · intro r rolls pr hg
    unfold getAlternativeTo at hg
    cases hnt : s'.cs.nts_to_chunks (ctx.getNt r) with
    | none => rw [hnt] at hg; simp [Option.bind] at hg
    | some vec =>
      rw [hnt] at hg
      simp only [Option.bind, Option.map_eq_some'] at hg
      obtain ⟨q, hq, hqp⟩ := hg
      cases hqp
      have hmem := chooseList_mem _ rolls pr hq
      have hvec := (List.mem_filter.mp hmem).1
      exact hocc' _ vec hnt pr hvec
  · intro wd nt l hl
    exact Option.noConfusion hl

/-- C4: `add_tree` skips every node whose subtree exceeds 30 nodes —
whatever a successful ingestion adds to the dedup set, the occurrence
index or the file system comes from a node of the ingested tree whose
subtree size is at most 30. -/
theorem size_cap (s : Sys) (t : Tree) (ctx : Context)
    (cc cw : String → Bool) (s' : Sys) (h : addTree s t ctx cc cw = .ok s') :
    (∀ b ∈ s'.cs.seen_outputs, b ∈ s.cs.seen_outputs ∨
      ∃ i, i < t.size ∧ t.sizes i ≤ 30 ∧ t.unparse i = b) ∧
    (∀ nt l', s'.cs.nts_to_chunks nt = some l' → ∀ pr ∈ l',
      (∃ l, s.cs.nts_to_chunks nt = some l ∧ pr ∈ l) ∨
      (pr.2 < t.size ∧ t.sizes pr.2 ≤ 30)) ∧
    (∀ p, s'.fs p ≠ s.fs p →
      ∃ i, i < t.size ∧ t.sizes i ≤ 30 ∧ s'.fs p = some (t.unparse i)) := by
  obtain ⟨st, hloop, hs'⟩ := addTree_ok_cases s t ctx cc cw s' h
  have L := addTreeLoop_spec s t ctx cc cw t.size st hloop
  obtain ⟨hseen, hnoc, hwd, hnts, hfs⟩ := addTree_untouched s t st s' hs'
  obtain ⟨new, hseq, hnc, hflag, hnewspec⟩ := L.seen
  refine ⟨?_, ?_, ?_⟩
  · intro b hb
    rw [hseen, hseq] at hb
    rcases List.mem_append.mp hb with hn | ho
    · obtain ⟨i, hik, hsz, hup, _⟩ := hnewspec b hn
      exact Or.inr ⟨i, hik, hsz, hup⟩
    · exact Or.inl ho
  · intro nt l' hl' pr hpr
    rw [hnts] at hl'
    rcases L.occs nt with hsame | ⟨add, hne, hadd, hP⟩
    · rw [hsame] at hl'
      exact Or.inl ⟨l', hl', hpr⟩
    · rw [hadd] at hl'
      injection hl' with hl'
      subst hl'
      rcases List.mem_append.mp hpr with hold | hadd'
      · cases hs0 : s.cs.nts_to_chunks nt with
        | none => rw [hs0] at hold; simp at hold
        | some l0 =>
          rw [hs0, Option.getD_some] at hold
          exact Or.inl ⟨l0, rfl, hold⟩
      · obtain ⟨_, p2, p3, _⟩ := hP pr hadd'
        exact Or.inr ⟨p2, p3⟩
  · intro p hp
    rw [hfs] at hp ⊢
    obtain ⟨n, hn1, hn2, hpn⟩ := L.fs_dom p hp
    obtain ⟨i, hik, hsz, hcont, _, _⟩ := L.fs_new n hn1 hn2
    exact ⟨i, hik, hsz, by rw [hpn]; exact hcont⟩

/-- C5: bytes already in the dedup set contribute nothing on a later
successful ingestion — their multiplicity in the dedup set is unchanged,
no file with those bytes is written, and every occurrence record that was
not already present belongs to different bytes. -/
theorem dedup_idempotent (s : Sys) (t : Tree) (ctx : Context)
    (cc cw : String → Bool) (s' : Sys) (b : Bytes)
    (hb : b ∈ s.cs.seen_outputs) (h : addTree s t ctx cc cw = .ok s') :
    s'.cs.seen_outputs.count b = s.cs.seen_outputs.count b ∧
    (∀ p, s'.fs p ≠ s.fs p → s'.fs p ≠ some b) ∧
    (∀ nt l', s'.cs.nts_to_chunks nt = some l' → ∀ pr ∈ l',
      (∃ l, s.cs.nts_to_chunks nt = some l ∧ pr ∈ l) ∨ t.unparse pr.2 ≠ b) := by
  obtain ⟨st, hloop, hs'⟩ := addTree_ok_cases s t ctx cc cw s' h
  have L := addTreeLoop_spec s t ctx cc cw t.size st hloop
  obtain ⟨hseen, hnoc, hwd, hnts, hfs⟩ := addTree_untouched s t st s' hs'
  obtain ⟨new, hseq, hnc, hflag, hnewspec⟩ := L.seen
  have hb_new : b ∉ new := by
    intro hn
    obtain ⟨_, _, _, _, hns⟩ := hnewspec b hn
    exact hns hb
  refine ⟨?_, ?_, ?_⟩
  · rw [hseen, hseq, List.count_append, List.count_eq_zero.mpr hb_new, Nat.zero_add]
  · intro p hp
    rw [hfs] at hp ⊢
    obtain ⟨n, hn1, hn2, hpn⟩ := L.fs_dom p hp
    obtain ⟨i, _, _, hcont, hns, _⟩ := L.fs_new n hn1 hn2
    rw [hpn, hcont]
    intro hcontra
    injection hcontra with hcontra
    exact hns (hcontra ▸ hb)
  · intro nt l' hl' pr hpr
    rw [hnts] at hl'
    rcases L.occs nt with hsame | ⟨add, hne, hadd, hP⟩
    · rw [hsame] at hl'
      exact Or.inl ⟨l', hl', hpr⟩
    · rw [hadd] at hl'
      injection hl' with hl'
      subst hl'
      rcases List.mem_append.mp hpr with hold | hadd'
      · cases hs0 : s.cs.nts_to_chunks nt with
        | none => rw [hs0] at hold; simp at hold
        | some l0 =>
          rw [hs0, Option.getD_some] at hold
          exact Or.inl ⟨l0, rfl, hold⟩
      · obtain ⟨_, _, _, _, _, p6, _⟩ := hP pr hadd'
        exact Or.inr (fun hcontra => p6 (hcontra ▸ hb))

/-! ## The failure path of `add_tree` (claim C1) -/

/-- A failing loop prefix leaves the failing chunk's bookkeeping behind:
some eligible node's bytes were inserted into the dedup set and its
occurrence record pushed, even though the call fails; the tree collection
is untouched. -/
theorem addTreeLoop_error_spec (s : Sys) (t : Tree) (ctx : Context)
    (cc cw : String → Bool) :
    ∀ k e, addTreeLoop s t ctx cc cw k = .error e →
      e.cs.trees = s.cs.trees ∧
      ∃ i, i < k ∧ t.sizes i ≤ 30 ∧
        t.unparse i ∈ e.cs.seen_outputs ∧ t.unparse i ∉ s.cs.seen_outputs ∧
        ∃ l, e.cs.nts_to_chunks (ctx.getNt (t.ruleId i)) = some l ∧
          (s.cs.trees.length, i) ∈ l := by
  intro k
  induction k with
  | zero => intro e h; exact Except.noConfusion h
  | succ k ih =>
    intro e h
    simp only [addTreeLoop] at h
    cases hl : addTreeLoop s t ctx cc cw k with
    | error e0 =>
      rw [hl] at h
      replace h : Except.error e0 = Except.error e := h
      cases h
      obtain ⟨htr, i, hik, hsz, h1, h2, h3⟩ := ih _ hl
      exact ⟨htr, i, Nat.lt_succ_of_lt hik, hsz, h1, h2, h3⟩
    | ok stp =>
      rw [hl] at h
      replace h : addTreeStep ctx t s.cs.trees.length cc cw stp k = .error e := h
      have L := addTreeLoop_spec s t ctx cc cw k stp hl
      obtain ⟨new, hseq, hnc, hflag, hnewspec⟩ := L.seen
      rcases addTreeStep_spec ctx t s.cs.trees.length cc cw stp k with
        ⟨hskip, heq⟩ | ⟨h30, hmem, hcase⟩
      · rw [heq] at h; exact Except.noConfusion h
      · have hnotin_s : t.unparse k ∉ s.cs.seen_outputs := by
          intro hin
          exact hmem (hseq ▸ List.mem_append_right new hin)
        rcases hcase with ⟨hcc, hcw, heq⟩ | ⟨hcc, hcw, heq⟩ | ⟨hcc, heq⟩
        · rw [heq] at h; exact Except.noConfusion h
        · rw [heq] at h
          injection h with h
          subst h
          refine ⟨L.trees_eq, k, Nat.lt_succ_self k, by omega, ?_, hnotin_s, ?_⟩
          · simp [insCs]
          · simp only [insCs, mapPush, if_pos rfl]
            exact ⟨_, rfl, List.mem_append_right _ (by simp)⟩
        · rw [heq] at h
          injection h with h
          subst h
          refine ⟨L.trees_eq, k, Nat.lt_succ_self k, by omega, ?_, hnotin_s, ?_⟩
          · simp [insCs]
          · simp only [insCs, mapPush, if_pos rfl]
            exact ⟨_, rfl, List.mem_append_right _ (by simp)⟩

/-- C1 (amended): when a chunk file cannot be created or written, the
ingestion call does fail (the `.expect` panic propagates), but the
failing chunk's dedup-set insertion and occurrence-index insertion are
*not* rolled back: the error state already contains the failing node's
bytes in the dedup set and its occurrence record in the index, while the
tree itself was never retained. -/
theorem ingest_failure_not_rolled_back (s : Sys) (t : Tree) (ctx : Context)
    (cc cw : String → Bool) (e : Sys) (h : addTree s t ctx cc cw = .error e) :
    e.cs.trees = s.cs.trees ∧
    ∃ i, i < t.size ∧ t.sizes i ≤ 30 ∧
      t.unparse i ∈ e.cs.seen_outputs ∧ t.unparse i ∉ s.cs.seen_outputs ∧
      ∃ l, e.cs.nts_to_chunks (ctx.getNt (t.ruleId i)) = some l ∧
        (s.cs.trees.length, i) ∈ l :=
  addTreeLoop_error_spec s t ctx cc cw t.size e (addTree_error_cases s t ctx cc cw e h)

/-- C10: deduplication applies within a single `add_tree` call.  If nodes
`i1 < i2` of the ingested tree serialize to identical bytes (both within
the size cap), then iteration `i2` of the loop changes nothing — the loop
state after processing node `i2` equals the state before it, so the dedup
set, occurrence index, chunk counter and file system are all untouched by
the duplicate — while node `i1`, when its bytes are novel and it is the
first eligible node with them, does produce the occurrence record and the
chunk file. -/
theorem intra_call_dedup (s : Sys) (t : Tree) (ctx : Context) (cc cw : String → Bool)
    (i1 i2 : Nat) (h12 : i1 < i2) (hsz1 : t.sizes i1 ≤ 30) (hsz2 : t.sizes i2 ≤ 30)
    (hdup : t.unparse i1 = t.unparse i2) :
    addTreeLoop s t ctx cc cw (i2 + 1) = addTreeLoop s t ctx cc cw i2 ∧
    (∀ st, addTreeLoop s t ctx cc cw i2 = .ok st →
      t.unparse i2 ∈ st.1.cs.seen_outputs) ∧
    (∀ st, addTreeLoop s t ctx cc cw i2 = .ok st →
      t.unparse i1 ∉ s.cs.seen_outputs →
      (∀ j, j < i1 → t.sizes j ≤ 30 → t.unparse j ≠ t.unparse i1) →
      ∃ l, st.1.cs.nts_to_chunks (ctx.getNt (t.ruleId i1)) = some l ∧
        (s.cs.trees.length, i1) ∈ l ∧
        ∃ n, s.cs.number_of_chunks ≤ n ∧ n < st.1.cs.number_of_chunks ∧
          st.1.fs (chunkFilePath s.cs.work_dir n) = some (t.unparse i1)) := by
  have hmem2 : ∀ st, addTreeLoop s t ctx cc cw i2 = .ok st →
      t.unparse i2 ∈ st.1.cs.seen_outputs := by
    intro st hst
    exact hdup ▸ (addTreeLoop_spec s t ctx cc cw i2 st hst).allSeen i1 h12 hsz1
  refine ⟨?_, hmem2, ?_⟩
  · simp only [addTreeLoop]
    cases hl : addTreeLoop s t ctx cc cw i2 with
    | error e => rfl
    | ok st =>
      have hm := hmem2 st hl
      show addTreeStep ctx t s.cs.trees.length cc cw st i2 = .ok st
      simp only [addTreeStep, if_neg (by omega : ¬ 30 < t.sizes i2), if_pos hm]
  · intro st hst hns hleast
    obtain ⟨_, ⟨l, hl, hm⟩, n, hn1, hn2, hn3⟩ :=
      (addTreeLoop_spec s t ctx cc cw i2 st hst).complete i1 h12 hsz1 hns hleast
    exact ⟨l, hl, hm, n, hn1, hn2, hn3⟩

/-! ## Concrete scenarios for the ingestion claims -/

/-- A trivial grammar context: every rule belongs to nonterminal 0. -/
def wCtx0 : Context := ⟨fun _ => 0⟩

/-- A one-node tree serializing to `[7]`. -/
def treeOne : Tree := ⟨1, fun _ => 1, fun _ => 0, fun _ => [7]⟩

/-- A two-node tree whose nodes both serialize to `[9]` (an intra-call
duplicate). -/
def treeDup : Tree := ⟨2, fun _ => 1, fun _ => 0, fun _ => [9]⟩

/-- A two-node tree whose node 0 has an oversized subtree (31 nodes). -/
def treeCap : Tree :=
  ⟨2, fun i => if i = 0 then 31 else 1, fun _ => 0, fun i => [i]⟩

/-- Ingesting `treeOne` into a fresh store when `File::create` fails. -/
def runCreateFail : Except Sys Sys :=
  addTree (Sys.init "w") treeOne wCtx0 (fun _ => false) (fun _ => true)

/-- The state the failed ingestion leaves behind. -/
def errCreateFail : Sys := (errState runCreateFail).getD (Sys.init "w")

/-- Ingesting `treeDup` into a fresh store, all file operations succeeding. -/
def runDup : Except Sys Sys :=
  addTree (Sys.init "w") treeDup wCtx0 (fun _ => true) (fun _ => true)

/-- The resulting state of `runDup`. -/
def okDup : Sys := (okState runDup).getD (Sys.init "w")

/-- Ingesting `treeCap` into a fresh store, all file operations succeeding. -/
def runCap : Except Sys Sys :=
  addTree (Sys.init "w") treeCap wCtx0 (fun _ => true) (fun _ => true)

/-- The resulting state of `runCap`. -/
def okCap : Sys := (okState runCap).getD (Sys.init "w")

/-- A store that has already seen the bytes `[9]` (with its single chunk
file on disk). -/
def seededSys : Sys :=
  { cs := { nts_to_chunks := fun _ => none
            seen_outputs := [[9]]
            trees := []
            work_dir := "w"
            number_of_chunks := 1 }
    fs := fun p => if p = chunkFilePath "w" 0 then some [9] else none }

/-- Re-ingesting the already-seen bytes `[9]` via `treeDup`. -/
def runSeeded : Except Sys Sys :=
  addTree seededSys treeDup wCtx0 (fun _ => true) (fun _ => true)

/-- The resulting state of `runSeeded`. -/
def okSeeded : Sys := (okState runSeeded).getD seededSys

/-- C1 counterexample: with a fresh store and a failing `File::create`,
the ingestion of `treeOne` fails — but the error state's dedup set
already holds the chunk's bytes `[7]` (the starting dedup set was empty)
and its occurrence index already records the occurrence `(0, 0)` under
nonterminal 0, while no chunk file exists.  The claimed rollback of the
failing chunk's bookkeeping does not happen. -/
theorem ingest_failure_counterexample :
    runCreateFail = .error errCreateFail ∧
    errCreateFail.cs.seen_outputs = [[7]] ∧
    (Sys.init "w").cs.seen_outputs = [] ∧
    errCreateFail.cs.nts_to_chunks 0 = some [(0, 0)] ∧
    errCreateFail.fs (chunkFilePath "w" 0) = none ∧
    errCreateFail.cs.number_of_chunks = 0 :=
  ⟨rfl, rfl, rfl, rfl, rfl, rfl⟩

/-- C1 witness (amended claim): the failed ingestion left the failing
node's bytes in the dedup set and its occurrence record in the index. -/
theorem ingest_failure_not_rolled_back_witness :
    errCreateFail.cs.trees = (Sys.init "w").cs.trees ∧
    ∃ i, i < treeOne.size ∧ treeOne.sizes i ≤ 30 ∧
      treeOne.unparse i ∈ errCreateFail.cs.seen_outputs ∧
      treeOne.unparse i ∉ (Sys.init "w").cs.seen_outputs ∧
      ∃ l, errCreateFail.cs.nts_to_chunks (wCtx0.getNt (treeOne.ruleId i)) = some l ∧
        ((Sys.init "w").cs.trees.length, i) ∈ l :=
  ingest_failure_not_rolled_back (Sys.init "w") treeOne wCtx0
    (fun _ => false) (fun _ => true) errCreateFail rfl

/-- `ChunkStore::new` over an empty chunk directory satisfies the store
invariant. -/
theorem storeInv_init (wd : String) : storeInv (Sys.init wd) := by
  refine ⟨rfl, List.nodup_nil, ?_, ?_⟩
  · intro n
    simp [Sys.init, ChunkStore.new]
  · intro p hp
    simp [Sys.init] at hp

/-- A fresh store has no occurrence records, hence valid ones. -/
theorem occInv_init (wd : String) : occInv (Sys.init wd) := by
  intro nt l h
  exact Option.noConfusion h

/-- C2 witness: the invariant survives a concrete successful ingestion. -/
theorem chunkstore_invariant_witness : storeInv okDup :=
  (chunkstore_invariant (Sys.init "w") treeDup wCtx0 (fun _ => true) (fun _ => true)
    okDup (storeInv_init "w") rfl).1

/-- C3 witness: occurrence validity survives a concrete successful
ingestion. -/
theorem occurrence_validity_witness : occInv okDup :=
  (occurrence_validity (Sys.init "w") treeDup wCtx0 (fun _ => true) (fun _ => true)
    okDup (occInv_init "w") rfl).1

/-- C4 witness: after ingesting `treeCap`, the bytes `[1]` in the dedup
set come from an eligible (≤ 30 nodes) node — never from the oversized
node 0. -/
theorem size_cap_witness :
    [1] ∈ (Sys.init "w").cs.seen_outputs ∨
    ∃ i, i < treeCap.size ∧ treeCap.sizes i ≤ 30 ∧ treeCap.unparse i = [1] :=
  (size_cap (Sys.init "w") treeCap wCtx0 (fun _ => true) (fun _ => true)
    okCap rfl).1 [1] (by decide)

/-- C5 witness: re-ingesting already-seen bytes `[9]` leaves their dedup
multiplicity unchanged. -/
theorem dedup_idempotent_witness :
    okSeeded.cs.seen_outputs.count [9] = seededSys.cs.seen_outputs.count [9] :=
  (dedup_idempotent seededSys treeDup wCtx0 (fun _ => true) (fun _ => true)
    okSeeded [9] (by decide) rfl).1

/-- C10 witness: processing node 1 of `treeDup` (a duplicate of node 0)
changes nothing — the loop state after two iterations equals the state
after one. -/
theorem intra_call_dedup_witness :
    addTreeLoop (Sys.init "w") treeDup wCtx0 (fun _ => true) (fun _ => true) 2 =
      addTreeLoop (Sys.init "w") treeDup wCtx0 (fun _ => true) (fun _ => true) 1 :=
  (intra_call_dedup (Sys.init "w") treeDup wCtx0 (fun _ => true) (fun _ => true)
    0 1 (by decide) (by decide) (by decide) rfl).1

/-! ## Claim C9: uniformity of the reservoir sampler

`IteratorRandom::choose` draws, for the `k`-th surviving element, a
uniform value from `[0, k+1)` and keeps the element iff the draw is 0.
We count roll assignments: the draws form the finite space
`∀ k : Fin n, Fin (k+1)` of size `n!`, and exactly `(n-1)!` of them
select any fixed position — probability `1/n` each. -/

/-- The space of roll assignments for a filtered sequence of length `n`:
the `k`-th element's draw is uniform over `Fin (k+1)`. -/
abbrev RollSpace (n : Nat) := ∀ k : Fin n, Fin (k.val + 1)

/-- Interpret a roll assignment as the roll function consumed by
`chooseList`. -/
def rollsOf (n : Nat) (f : RollSpace n) : Nat → Nat :=
  fun k => if h : k < n then (f ⟨k, h⟩).val else 0

theorem chooseList_eq_lastHit (l : List α) (rolls : Nat → Nat) :
    chooseList l rolls = lastHit rolls l 0 := by
  unfold chooseList
  rw [chooseAux_eq]
  cases lastHit rolls l 0 <;> rfl

theorem lastHit_eq_none_iff (rolls : Nat → Nat) :
    ∀ (l : List α) (k), lastHit rolls l k = none ↔
      ∀ p, p < l.length → rolls (k + p) % (k + p + 1) ≠ 0 := by
  intro l
  induction l with
  | nil => intro k; simp [lastHit]
  | cons x xs ih =>
    intro k
    simp only [lastHit]
    cases hxs : lastHit rolls xs (k + 1) with
    | some z =>
      constructor
      · intro h; exact Option.noConfusion h
      · intro h
        exfalso
        have hN : ¬ (∀ p, p < xs.length → rolls (k + 1 + p) % (k + 1 + p + 1) ≠ 0) := by
          intro hall
          rw [← ih (k + 1)] at hall
          rw [hxs] at hall
          exact Option.noConfusion hall
        push_neg at hN
        obtain ⟨p, hp, hhit⟩ := hN
        have harith : k + (p + 1) = k + 1 + p := by omega
        refine h (p + 1) (by simpa using Nat.succ_lt_succ hp) ?_
        rw [harith]
        exact hhit
    | none =>
      have hnone := (ih (k + 1)).mp hxs
      by_cases hc : rolls k % (k + 1) = 0
      · rw [if_pos hc]
        constructor
        · intro h; exact Option.noConfusion h
        · intro h
          exfalso
          have := h 0 (by simp)
          rw [Nat.add_zero] at this
          exact this hc
      · rw [if_neg hc]
        constructor
        · intro _ p hp
          cases p with
          | zero => rw [Nat.add_zero]; exact hc
          | succ q =>
            have harith : k + (q + 1) = (k + 1) + q := by omega
            rw [harith]
            exact hnone q (by simpa using hp)
        · intro _; rfl

/-- `lastHit` finds exactly the last index whose roll hits 0. -/
theorem lastHit_eq_some_iff (rolls : Nat → Nat) :
    ∀ (l : List α) (k) (y : α), lastHit rolls l k = some y ↔
      ∃ p, ∃ hp : p < l.length, y = l.get ⟨p, hp⟩ ∧
        rolls (k + p) % (k + p + 1) = 0 ∧
        ∀ q, p < q → q < l.length → rolls (k + q) % (k + q + 1) ≠ 0 := by
  intro l
  induction l with
  | nil =>
    intro k y
    constructor
    · intro h; exact Option.noConfusion h
    · rintro ⟨p, hp, _⟩
      exact absurd hp (Nat.not_lt_zero p)
  | cons x xs ih =>
    intro k y
    simp only [lastHit]
    cases hxs : lastHit rolls xs (k + 1) with
    | some z =>
      show some z = some y ↔ _
      constructor
      · intro h
        obtain rfl : z = y := by injection h
        obtain ⟨p, hp, hy, hhit, hafter⟩ := (ih (k + 1) z).mp hxs
        refine ⟨p + 1, by simpa using Nat.succ_lt_succ hp, ?_, ?_, ?_⟩
        · exact hy
        · have harith : k + (p + 1) = k + 1 + p := by omega
          rw [harith]; exact hhit
        · intro q hq1 hq2
          match q, hq1 with
          | q' + 1, _ =>
            have harith : k + (q' + 1) = k + 1 + q' := by omega
            rw [harith]
            exact hafter q' (by omega) (by simpa using hq2)
      · rintro ⟨p, hp, hy, hhit, hafter⟩
        cases p with
        | zero =>
          exfalso
          obtain ⟨p', hp', _, hhit', _⟩ := (ih (k + 1) z).mp hxs
          refine hafter (p' + 1) (by omega) (by simpa using Nat.succ_lt_succ hp') ?_
          have harith : k + (p' + 1) = k + 1 + p' := by omega
          rw [harith]; exact hhit'
        | succ p' =>
          have hxs' : lastHit rolls xs (k + 1) = some y := by
            refine (ih (k + 1) y).mpr ⟨p', by simpa using hp, hy, ?_, ?_⟩
            · have harith : k + 1 + p' = k + (p' + 1) := by omega
              rw [harith]; exact hhit
            · intro q hq1 hq2
              have harith : k + 1 + q = k + (q + 1) := by omega
              rw [harith]
              exact hafter (q + 1) (by omega) (by simpa using Nat.succ_lt_succ hq2)
          rw [hxs] at hxs'
          exact hxs'
    | none =>
      show (if rolls k % (k + 1) = 0 then some x else none) = some y ↔ _
      have hnone := (lastHit_eq_none_iff rolls xs (k + 1)).mp hxs
      by_cases hc : rolls k % (k + 1) = 0
      · rw [if_pos hc]
        constructor
        · intro h
          obtain rfl : x = y := by injection h
          refine ⟨0, by simp, rfl, by simpa using hc, ?_⟩
          intro q hq1 hq2
          match q, hq1 with
          | q' + 1, _ =>
            have harith : k + (q' + 1) = k + 1 + q' := by omega
            rw [harith]
            exact hnone q' (by simpa using hq2)
        · rintro ⟨p, hp, hy, hhit, hafter⟩
          cases p with
          | zero => rw [hy]; rfl
          | succ p' =>
            exfalso
            have harith : k + (p' + 1) = k + 1 + p' := by omega
            rw [harith] at hhit
            exact hnone p' (by simpa using hp) hhit
      · rw [if_neg hc]
        constructor
        · intro h; exact Option.noConfusion h
        · rintro ⟨p, hp, hy, hhit, hafter⟩
          exfalso
          cases p with
          | zero =>
            rw [Nat.add_zero] at hhit
            exact hc hhit
          | succ p' =>
            have harith : k + (p' + 1) = k + 1 + p' := by omega
            rw [harith] at hhit
            exact hnone p' (by simpa using hp) hhit

/-- Per-coordinate condition for the sampler to select position `j`: the
roll at `j` is 0 and every later roll is nonzero. -/
abbrev QSel (n j : Nat) (k : Fin n) (x : Fin (k.val + 1)) : Prop :=
  (k.val = j → x = 0) ∧ (j < k.val → x ≠ 0)

/-- On a duplicate-free list, the sampler returns the element at `j` iff
the roll assignment satisfies the per-coordinate condition. -/
theorem choose_rollsOf_iff (l : List (Nat × Nat)) (hnd : l.Nodup) (j : Fin l.length)
    (f : RollSpace l.length) :
    chooseList l (rollsOf l.length f) = some (l.get j) ↔
      ∀ k, QSel l.length j.val k (f k) := by
  have hhit_iff : ∀ p (hp : p < l.length),
      (rollsOf l.length f p % (p + 1) = 0 ↔ f ⟨p, hp⟩ = 0) := by
    intro p hp
    unfold rollsOf
    rw [dif_pos hp, Nat.mod_eq_of_lt (f ⟨p, hp⟩).isLt]
    simp [Fin.ext_iff]
  rw [chooseList_eq_lastHit, lastHit_eq_some_iff]
  constructor
  · rintro ⟨p, hp, hy, hhit, hafter⟩
    have hpj : (⟨p, hp⟩ : Fin l.length) = j := (hnd.get_inj_iff).mp hy.symm
    have hpj' : p = j.val := by rw [← hpj]
    intro k
    constructor
    · intro hkj
      have hk : k = ⟨p, hp⟩ := by
        apply Fin.ext
        simp [hkj, hpj']
      rw [hk]
      apply (hhit_iff p hp).mp
      simpa using hhit
    · intro hjk hk0
      refine hafter k.val (by omega) k.isLt ?_
      simp only [Nat.zero_add]
      apply (hhit_iff k.val k.isLt).mpr
      have hke : (⟨k.val, k.isLt⟩ : Fin l.length) = k := Fin.ext rfl
      rw [hke]
      exact hk0
  · intro hQ
    refine ⟨j.val, j.isLt, ?_, ?_, ?_⟩
    · exact congrArg l.get (Fin.ext rfl)
    · simp only [Nat.zero_add]
      exact (hhit_iff j.val j.isLt).mpr ((hQ ⟨j.val, j.isLt⟩).1 rfl)
    · intro q hq1 hq2
      simp only [Nat.zero_add]
      intro hcontra
      exact (hQ ⟨q, hq2⟩).2 hq1 ((hhit_iff q hq2).mp hcontra)

/-- The per-coordinate count: 1 at position `j`, `m` after it, `m + 1`
before it. -/
def cSel (j m : Nat) : Nat := if m = j then 1 else if j < m then m else m + 1

theorem card_QSel_coord (n j : Nat) (k : Fin n) :
    Fintype.card {x : Fin (k.val + 1) // QSel n j k x} = cSel j k.val := by
  unfold cSel
  by_cases h1 : k.val = j
  · rw [if_pos h1]
    have e : {x : Fin (k.val + 1) // QSel n j k x} ≃ {x : Fin (k.val + 1) // x = 0} :=
      Equiv.subtypeEquivRight (fun x =>
        ⟨fun hq => hq.1 h1, fun hx => ⟨fun _ => hx, fun hlt => absurd hlt (by omega)⟩⟩)
    rw [Fintype.card_congr e]
    exact Fintype.card_subtype_eq 0
  · by_cases h2 : j < k.val
    · rw [if_neg h1, if_pos h2]
      have e : {x : Fin (k.val + 1) // QSel n j k x} ≃ {x : Fin (k.val + 1) // ¬ x = 0} :=
        Equiv.subtypeEquivRight (fun x =>
          ⟨fun hq => hq.2 h2, fun hx => ⟨fun he => absurd he h1, fun _ => hx⟩⟩)
      rw [Fintype.card_congr e,
        Fintype.card_subtype_compl (fun x : Fin (k.val + 1) => x = 0),
        Fintype.card_subtype_eq (0 : Fin (k.val + 1)), Fintype.card_fin]
      omega
    · rw [if_neg h1, if_neg h2]
      have e : {x : Fin (k.val + 1) // QSel n j k x} ≃ Fin (k.val + 1) :=
        Equiv.subtypeUnivEquiv (fun x =>
          ⟨fun he => absurd he h1, fun hlt => absurd hlt h2⟩)
      rw [Fintype.card_congr e]
      exact Fintype.card_fin _

theorem prod_cSel (j : Nat) :
    ∀ n, j < n → ∏ m ∈ Finset.range n, cSel j m = Nat.factorial (n - 1) := by
  intro n
  induction n with
  | zero => intro h; omega
  | succ m ih =>
    intro hj
    rw [Finset.prod_range_succ]
    rcases Nat.lt_succ_iff_lt_or_eq.mp hj with hx | hx
    · rw [ih hx]
      have hm : 0 < m := by omega
      have hc : cSel j m = m := by
        unfold cSel
        rw [if_neg (by omega), if_pos hx]
      rw [hc, Nat.succ_sub_one, Nat.mul_comm]
      exact Nat.mul_factorial_pred hm
    · subst hx
      have hc : cSel j j = 1 := by unfold cSel; rw [if_pos rfl]
      have hcongr : ∀ x ∈ Finset.range j, cSel j x = x + 1 := by
        intro x hx
        have hxj : x < j := Finset.mem_range.mp hx
        unfold cSel
        rw [if_neg (by omega), if_neg (by omega)]
      rw [hc, Finset.prod_congr rfl hcongr, Finset.prod_range_add_one_eq_factorial]
      simp

/-- There are `n!` roll assignments in total. -/
theorem card_RollSpace (n : Nat) : Fintype.card (RollSpace n) = Nat.factorial n := by
  rw [Fintype.card_pi]
  have hcongr : ∀ k ∈ (Finset.univ : Finset (Fin n)),
      Fintype.card (Fin (k.val + 1)) = k.val + 1 := fun k _ => Fintype.card_fin _
  rw [Finset.prod_congr rfl hcongr,
    Fin.prod_univ_eq_prod_range (fun m => m + 1) n,
    Finset.prod_range_add_one_eq_factorial]

/-- Exactly `(n-1)!` of the `n!` roll assignments select position `j`. -/
theorem card_selects (n j : Nat) (hj : j < n) :
    Fintype.card {f : RollSpace n // ∀ k, QSel n j k (f k)} = Nat.factorial (n - 1) := by
  rw [Fintype.card_congr (Equiv.subtypePiEquivPi (p := fun k x => QSel n j k x))]
  rw [Fintype.card_pi]
  have hcongr : ∀ k ∈ (Finset.univ : Finset (Fin n)),
      Fintype.card {x : Fin (k.val + 1) // QSel n j k x} = cSel j k.val :=
    fun k _ => card_QSel_coord n j k
  rw [Finset.prod_congr rfl hcongr,
    Fin.prod_univ_eq_prod_range (cSel j) n]
  exact prod_cSel j n hj

/-- C9: `get_alternative_to` samples uniformly from the filtered
occurrence sequence.  For any store whose filtered sequence for rule `r`
is the duplicate-free list `l` of length `N` and any position `j` in it,
exactly `(N-1)!` of the `N!` equally likely roll assignments of the
single-pass reservoir sampler make `get_alternative_to` return the
occurrence at `j` — each surviving occurrence is selected with
probability `1/N`. -/
theorem uniform_alternative_sampling (cs : ChunkStore) (r : RuleId) (ctx : Context)
    (l : List (Nat × Nat)) (hfil : filteredOccs cs r ctx = l) (hnd : l.Nodup)
    (j : Fin l.length) :
    Fintype.card {f : RollSpace l.length //
        getAlternativeTo cs r ctx (rollsOf l.length f) = some (l.get j)} =
      Nat.factorial (l.length - 1) ∧
    Fintype.card (RollSpace l.length) = Nat.factorial l.length ∧
    Fintype.card {f : RollSpace l.length //
        getAlternativeTo cs r ctx (rollsOf l.length f) = some (l.get j)} * l.length =
      Fintype.card (RollSpace l.length) := by
  have hne : l ≠ [] := by
    intro he
    have hpos : 0 < l.length := Nat.lt_of_le_of_lt (Nat.zero_le _) j.isLt
    rw [he] at hpos
    simp at hpos
  have hgetalt : ∀ rolls, getAlternativeTo cs r ctx rolls = chooseList l rolls := by
    intro rolls
    unfold getAlternativeTo
    cases hnt : cs.nts_to_chunks (ctx.getNt r) with
    | none =>
      exfalso
      unfold filteredOccs at hfil
      rw [hnt] at hfil
      simp only [Option.getD_none, List.filter_nil] at hfil
      exact hne hfil.symm
    | some vec =>
      unfold filteredOccs at hfil
      rw [hnt, Option.getD_some] at hfil
      simp only [Option.bind, hfil]
      cases chooseList l rolls <;> rfl
  have hiff : ∀ f : RollSpace l.length,
      (getAlternativeTo cs r ctx (rollsOf l.length f) = some (l.get j)) ↔
        ∀ k, QSel l.length j.val k (f k) := by
    intro f
    rw [hgetalt]
    exact choose_rollsOf_iff l hnd j f
  have hmain : Fintype.card {f : RollSpace l.length //
      getAlternativeTo cs r ctx (rollsOf l.length f) = some (l.get j)} =
      Nat.factorial (l.length - 1) := by
    rw [Fintype.card_congr (Equiv.subtypeEquivRight hiff)]
    exact card_selects l.length j.val j.isLt
  refine ⟨hmain, card_RollSpace l.length, ?_⟩
  rw [hmain, card_RollSpace]
  have hpos : 0 < l.length := by
    cases l with
    | nil => exact absurd rfl hne
    | cons a as => simp
  rw [Nat.mul_comm]
  exact Nat.mul_factorial_pred hpos

/-- C9 witness: on `witnessStore` and rule 3, the filtered sequence is
`[(0, 1)]` and the counting statement evaluates at it. -/
theorem uniform_alternative_sampling_witness :
    Fintype.card {f : RollSpace ([((0 : Nat), (1 : Nat))] : List (Nat × Nat)).length //
        getAlternativeTo witnessStore 3 witnessCtx
            (rollsOf ([((0 : Nat), (1 : Nat))] : List (Nat × Nat)).length f) =
          some (([((0 : Nat), (1 : Nat))] : List (Nat × Nat)).get ⟨0, by decide⟩)} =
      Nat.factorial (([((0 : Nat), (1 : Nat))] : List (Nat × Nat)).length - 1) :=
  (uniform_alternative_sampling witnessStore 3 witnessCtx
    [((0 : Nat), (1 : Nat))] rfl (by decide) ⟨0, by decide⟩).1

end Nautilus
